import Mathlib

/-!
Verification of the dependency-aware extraction engine of `pg_sub_data`
(schema model, FK graph, Kahn topological sort, child-query builder,
COPY-format value escaping, and the extraction driver).

Each definition is a shallow embedding of the corresponding Go function,
keeping the source's names where Lean allows it.  Go maps are modelled as
total functions with pointwise update (a missing key yields the Go zero
value), Go slices as lists, and database values (`any` in Go) as the
inductive `Value` / `CopyValue` types.  Go map iteration order, which is
unspecified and randomized at runtime, is modelled as an explicit
enumeration parameter (`tablesKeys`).
-/

namespace PgSubData

/-- A database value as handled by the extractor (Go `any`).
`vnull` models Go `nil`. -/
inductive Value where
  | vnull
  | vint (n : Int)
  | vstr (s : String)
deriving DecidableEq, Repr

/-- internal/schema/types.go: `Column`. -/
structure Column where
  Name : String
  DataType : String
  Nullable : Bool
  OrdPos : Int
deriving DecidableEq, Repr

/-- internal/schema/types.go: `PrimaryKey`. -/
structure PrimaryKey where
  Columns : List String
deriving DecidableEq, Repr

/-- internal/schema/types.go: `ForeignKey` (with the virtual-relation fields;
`Virtual` is a Go string: "", "array" or "json"). -/
structure ForeignKey where
  Name : String
  ChildSchema : String
  ChildTable : String
  ChildColumns : List String
  ParentSchema : String
  ParentTable : String
  ParentColumns : List String
  IsSelfRef : Bool
  Virtual : String
  JSONPath : String
deriving DecidableEq, Repr

/-- internal/schema/types.go: `Table`. -/
structure Table where
  Schema : String
  Name : String
  Columns : List Column
  PrimaryKey : Option PrimaryKey
  ForeignKeys : List ForeignKey
deriving DecidableEq, Repr

/-- internal/schema/types.go: `Table.FullName`. -/
def Table.FullName (t : Table) : String := t.Schema ++ "." ++ t.Name

/-- internal/schema/types.go: `Table.ColumnNames`. -/
def Table.ColumnNames (t : Table) : List String := t.Columns.map (·.Name)

/-- internal/extract/query.go: `buildRootQuery`. -/
def buildRootQuery (table : Table) (whereClause : String) : String :=
  let q := "SELECT * FROM " ++ table.FullName
  if whereClause ≠ "" then q ++ " WHERE " ++ whereClause else q

/-- Lookup of a column by name, modelling the Go map built by `isFKNullable`
(`colMap[col.Name] = &cols[i]` in slice order, so a later duplicate name
overwrites an earlier one; a missing name yields `none`). -/
def lookupColumn (cols : List Column) (name : String) : Option Column :=
  (cols.filter (fun c => c.Name == name)).getLast?

/-- internal/extract/query.go: `isFKNullable` — true iff any child column of
the FK exists in the table and is nullable. -/
def isFKNullable (table : Table) (fk : ForeignKey) : Bool :=
  fk.ChildColumns.any (fun colName =>
    match lookupColumn table.Columns colName with
    | some col => col.Nullable
    | none => false)

/-- internal/extract/query.go: `buildSingleColumnIN`.
Returns (condition, bind args, next parameter index).  The Go code indexes
`fk.ChildColumns[0]` and `pk[0]`; out-of-range access is modelled by the
Go zero values (`""` / nil). -/
def buildSingleColumnIN (fk : ForeignKey) (pks : List (List Value))
    (nullable : Bool) (argIdx : Nat) : String × List Value × Nat :=
  let col := fk.ChildColumns.getD 0 ""
  let pks := if pks.length > 10000 then pks.take 10000 else pks
  let placeholders := (List.range pks.length).map (fun i => "$" ++ toString (argIdx + i))
  let args := pks.map (fun pk => pk.getD 0 Value.vnull)
  let cond := col ++ " IN (" ++ String.intercalate ", " placeholders ++ ")"
  let cond := if nullable then "(" ++ cond ++ " OR " ++ col ++ " IS NULL)" else cond
  (cond, args, argIdx + pks.length)

/-- Inner loop of `buildCompositeIN` over one PK tuple: one placeholder per
child column, binding `pk[j]` and `nil` (NULL) when the tuple is shorter. -/
def tupleFor (cols : List String) (pk : List Value) (argIdx : Nat) :
    List String × List Value × Nat :=
  match cols with
  | [] => ([], [], argIdx)
  | _ :: restCols =>
      let ph := "$" ++ toString argIdx
      let a := match pk with
        | [] => Value.vnull
        | v :: _ => v
      let r := tupleFor restCols (pk.drop 1) (argIdx + 1)
      (ph :: r.1, a :: r.2.1, r.2.2)

/-- Outer loop of `buildCompositeIN` over all PK tuples. -/
def allTuples (cols : List String) (pks : List (List Value)) (argIdx : Nat) :
    List String × List Value × Nat :=
  match pks with
  | [] => ([], [], argIdx)
  | pk :: rest =>
      let t := tupleFor cols pk argIdx
      let tup := "(" ++ String.intercalate ", " t.1 ++ ")"
      let r := allTuples cols rest t.2.2
      (tup :: r.1, t.2.1 ++ r.2.1, r.2.2)

/-- internal/extract/query.go: `buildCompositeIN`. -/
def buildCompositeIN (fk : ForeignKey) (pks : List (List Value))
    (nullable : Bool) (argIdx : Nat) : String × List Value × Nat :=
  let cols := String.intercalate ", " fk.ChildColumns
  let pks := if pks.length > 10000 then pks.take 10000 else pks
  let r := allTuples fk.ChildColumns pks argIdx
  let cond := "(" ++ cols ++ ") IN (" ++ String.intercalate ", " r.1 ++ ")"
  let cond := if nullable then
      "(" ++ cond ++ " OR (" ++
        String.intercalate " AND " (fk.ChildColumns.map (fun c => c ++ " IS NULL")) ++ "))"
    else cond
  (cond, r.2.1, r.2.2)

/-- Loop of `buildChildQuery` over the child table's FK list, threading the
parameter index.  `parentPKs` models the Go map `parentPKs[parentKey]`
(missing key = empty list). -/
def buildChildConds (table : Table) (parentPKs : String → List (List Value))
    (fks : List ForeignKey) (argIdx : Nat) : List String × List Value :=
  match fks with
  | [] => ([], [])
  | fk :: rest =>
      if fk.IsSelfRef then buildChildConds table parentPKs rest argIdx
      else
        let parentKey := fk.ParentSchema ++ "." ++ fk.ParentTable
        let pks := parentPKs parentKey
        if pks.length = 0 then buildChildConds table parentPKs rest argIdx
        else
          let nullable := isFKNullable table fk
          let r :=
            if fk.ChildColumns.length = 1 then buildSingleColumnIN fk pks nullable argIdx
            else buildCompositeIN fk pks nullable argIdx
          let rec' := buildChildConds table parentPKs rest r.2.2
          (r.1 :: rec'.1, r.2.1 ++ rec'.2)

/-- internal/extract/query.go: `buildChildQuery`.  Note that the Go function
branches only on `len(fk.ChildColumns)`; the `Virtual` kind and `JSONPath`
of the FK are never consulted. -/
def buildChildQuery (table : Table) (parentPKs : String → List (List Value)) :
    String × List Value :=
  let r := buildChildConds table parentPKs table.ForeignKeys 1
  if r.1 = [] then ("", [])
  else ("SELECT * FROM " ++ table.FullName ++ " WHERE " ++
        String.intercalate " AND " r.1, r.2)

/-- Seed condition of `buildSelfRefQuery` (PK IN ... over the seed tuples). -/
def selfRefSeedCond (pkCols : List String) (seedPKs : List (List Value)) :
    String × List Value × Nat :=
  if pkCols.length = 1 then
    let placeholders := (List.range seedPKs.length).map (fun i => "$" ++ toString (1 + i))
    let args := seedPKs.map (fun pk => pk.getD 0 Value.vnull)
    (pkCols.getD 0 "" ++ " IN (" ++ String.intercalate ", " placeholders ++ ")",
     args, 1 + seedPKs.length)
  else
    let r := allTuples pkCols seedPKs 1
    ("(" ++ String.intercalate ", " pkCols ++ ") IN (" ++
       String.intercalate ", " r.1 ++ ")", r.2.1, r.2.2)

/-- internal/extract/query.go: `buildSelfRefQuery` — recursive CTE walking
toward ancestors.  Go indexes `fkParentCols[i]` for `i` over the child
columns; out-of-range is modelled by `""`. -/
def buildSelfRefQuery (table : Table) (fk : ForeignKey)
    (seedPKs : List (List Value)) : String × List Value :=
  match table.PrimaryKey with
  | none => ("", [])
  | some pk =>
      if seedPKs.length = 0 then ("", [])
      else
        let seed := selfRefSeedCond pk.Columns seedPKs
        let joinConds := (List.range fk.ChildColumns.length).map (fun i =>
          "t." ++ fk.ParentColumns.getD i "" ++ " = r." ++ fk.ChildColumns.getD i "")
        let q := "WITH RECURSIVE tree AS (\n  SELECT t.* FROM " ++ table.FullName ++
          " t WHERE " ++ seed.1 ++ "\n  UNION ALL\n  SELECT t.* FROM " ++
          table.FullName ++ " t JOIN tree r ON " ++
          String.intercalate " AND " joinConds ++ "\n)\nSELECT DISTINCT * FROM tree"
        (q, seed.2.1)

/-- internal/graph/graph.go: the `Graph` record, restricted to the fields the
analyzer and extractor read.  `tablesKeys` enumerates the keys of the Go map
`g.Tables` in the (unspecified, randomized) order a `range` loop visits them;
`TablesMap`, `Parents` and `SelfRefs` model the maps themselves, with a
missing key yielding the Go zero value (`nil`). -/
structure Graph where
  tablesKeys : List String
  TablesMap : String → Option Table
  Parents : String → List String
  SelfRefs : String → List ForeignKey

/-- internal/graph/toposort.go: `TopoResult`. -/
structure TopoResult where
  Order : List String
  HasCycle : Bool
  CycleTables : List String
deriving DecidableEq, Repr

/-- internal/graph/toposort.go: the `localChildren` map of `TopoSort`.
For each `t` in `tables` and each `p ∈ g.Parents[t]` that lies in the
subset, `t` is appended to `localChildren[p]` (with multiplicity). -/
def localChildren (Parents : String → List String) (tables : List String)
    (p : String) : List String :=
  tables.flatMap (fun t =>
    ((Parents t).filter (fun q => tables.contains q)).filterMap
      (fun q => if q = p then some t else none))

/-- internal/graph/toposort.go: the initial `inDegree` map of `TopoSort`
(number of subset-local parent edges, counted with multiplicity; keys
outside `tables` keep the Go map zero value 0). -/
def initialDeg (Parents : String → List String) (tables : List String)
    (t : String) : Int :=
  if tables.contains t then
    (((Parents t).filter (fun q => tables.contains q)).length : Int)
  else 0

/-- The body of the Go `for _, child := range localChildren[node]` loop:
decrement each child's in-degree and enqueue it when it reaches zero. -/
def processChildren (cs : List String) (deg : String → Int)
    (queue : List String) : (String → Int) × List String :=
  match cs with
  | [] => (deg, queue)
  | c :: rest =>
      let deg' := fun x => if x = c then deg x - 1 else deg x
      let queue' := if deg c - 1 = 0 then queue ++ [c] else queue
      processChildren rest deg' queue'

/-- internal/graph/toposort.go: the `for len(queue) > 0` dequeue loop of
`TopoSort`.  The loop terminates because every node is enqueued at most
once; `fuel = |tables|` (supplied by `TopoSort`) is an upper bound on the
number of iterations, so the fuel-exhausted branch is unreachable. -/
def kahnLoop (children : String → List String) :
    Nat → List String → (String → Int) → List String →
    List String × (String → Int)
  | _, [], deg, order => (order, deg)
  | 0, _ :: _, deg, order => (order, deg)
  | fuel + 1, node :: rest, deg, order =>
      let r := processChildren (children node) deg rest
      kahnLoop children fuel r.2 r.1 (order ++ [node])

/-- internal/graph/toposort.go: `TopoSort` (Kahn's algorithm on a subset of
the graph's tables).  No sorting of any kind is performed: the queue is
seeded, and children are visited, in the order given by `tables` and by
the `Parents` adjacency lists. -/
def TopoSort (g : Graph) (tables : List String) : TopoResult :=
  let deg0 := initialDeg g.Parents tables
  let queue0 := tables.filter (fun t => deg0 t == 0)
  let r := kahnLoop (localChildren g.Parents tables) tables.length queue0 deg0 []
  let order := r.1
  if order.length < tables.length then
    { Order := order, HasCycle := true,
      CycleTables := tables.filter (fun t => 0 < r.2 t) }
  else
    { Order := order, HasCycle := false, CycleTables := [] }

/-- internal/graph/toposort.go: `TopoSortAll` — `for name := range g.Tables`
collects the keys in Go map iteration order (modelled by `g.tablesKeys`)
and runs `TopoSort` on them. -/
def TopoSortAll (g : Graph) : TopoResult :=
  TopoSort g g.tablesKeys

/-- `p` occurs at a strictly smaller index than `t` in `l`. -/
def appearsBefore (l : List String) (p t : String) : Prop :=
  ∃ i j : Nat, i < j ∧ l[i]? = some p ∧ l[j]? = some t

/-! ## COPY text-format escaping (internal/output/escape.go) -/

/-- A value as dispatched by `EscapeCopyValue`.  Go `time.Time`, `Stringer`
and all other kinds are first rendered to their string form and then
string-escaped, so they are represented here by `vstring` of that string
form; bytes are `[]byte`. -/
inductive CopyValue where
  | vnull
  | vbool (b : Bool)
  | vbytes (bs : List (Fin 256))
  | vstring (s : List Char)
deriving DecidableEq, Repr

/-- The hex alphabet used by Go's `hex.EncodeToString`. -/
def hexDigits : List Char := "0123456789abcdef".toList

/-- One byte as two lowercase hex digits (Go `hex.EncodeToString`). -/
def encodeByte (b : Fin 256) : List Char :=
  [hexDigits.getD (b.val / 16) '0', hexDigits.getD (b.val % 16) '0']

/-- Go `hex.EncodeToString` over a byte slice. -/
def hexEncode (bs : List (Fin 256)) : List Char := bs.flatMap encodeByte

/-- internal/output/escape.go: the `switch r` body of `escapeString`. -/
def escapeChar (c : Char) : List Char :=
  if c = '\\' then ['\\', '\\']
  else if c = '\n' then ['\\', 'n']
  else if c = '\r' then ['\\', 'r']
  else if c = '\t' then ['\\', 't']
  else [c]

/-- internal/output/escape.go: `escapeString` (COPY text-format escaping),
over the string's characters. -/
def escapeString (s : List Char) : List Char := s.flatMap escapeChar

/-- internal/output/escape.go: `EscapeCopyValue`.  NULL is `\N`, booleans
are `t`/`f`, bytes are `\\x<hex>` (a literal backslash-backslash-x prefix,
from the Go raw string), everything else is string-escaped. -/
def EscapeCopyValue : CopyValue → List Char
  | .vnull => ['\\', 'N']
  | .vbool true => ['t']
  | .vbool false => ['f']
  | .vbytes bs => '\\' :: '\\' :: 'x' :: hexEncode bs
  | .vstring s => escapeString s

/-- Modelled from the spec: the COPY text-format reader's translation of a
backslash escape code (`\n`, `\r`, `\t`; any other escaped character stands
for itself, so `\\` yields a backslash). -/
def unescapeCode (d : Char) : Char :=
  if d = 'n' then '\n'
  else if d = 'r' then '\r'
  else if d = 't' then '\t'
  else d

/-- Modelled from the spec: un-escaping of one COPY text-format field (the
inverse reading of the string-escape rules of §4.6 of the spec; the repo
only writes this format, it never parses it). -/
def unescapeString : List Char → List Char
  | [] => []
  | ['\\'] => []
  | '\\' :: d :: rest => unescapeCode d :: unescapeString rest
  | c :: rest => c :: unescapeString rest

/-- The column kind a COPY field is decoded at. -/
inductive CopyKind where
  | kbool
  | kbytes
  | kstring
deriving DecidableEq, Repr

/-- The kind under which each `CopyValue` is emitted (NULL may be decoded
at any kind; `kstring` is used as representative). -/
def kindOf : CopyValue → CopyKind
  | .vnull => .kstring
  | .vbool _ => .kbool
  | .vbytes _ => .kbytes
  | .vstring _ => .kstring

/-- Value of a hex digit, as position in the hex alphabet. -/
def hexVal (c : Char) : Option Nat :=
  hexDigits.findIdx? (fun d => d == c)

/-- Modelled from the spec: PostgreSQL's parse of a hex bytea body
(pairs of hex digits). -/
def hexDecode : List Char → Option (List (Fin 256))
  | [] => some []
  | [_] => none
  | hi :: lo :: rest =>
      match hexVal hi, hexVal lo, hexDecode rest with
      | some h, some l, some bs =>
          if hh : 16 * h + l < 256 then some (⟨16 * h + l, hh⟩ :: bs) else none
      | _, _, _ => none

/-- Modelled from the spec: decoding of one emitted COPY text-format field
with the dialect's rules (§4.6): `\N` is NULL; otherwise the field is
un-escaped and parsed at the column's kind (`t`/`f` for booleans,
`\x<hex>` for bytea, identity for text). -/
def decodeCopyField (k : CopyKind) (field : List Char) : Option CopyValue :=
  if field = ['\\', 'N'] then some .vnull
  else
    match k with
    | .kbool =>
        match field with
        | ['t'] => some (.vbool true)
        | ['f'] => some (.vbool false)
        | _ => none
    | .kbytes =>
        match unescapeString field with
        | '\\' :: 'x' :: hx => (hexDecode hx).map .vbytes
        | _ => none
    | .kstring => some (.vstring (unescapeString field))

/-! ## Extraction driver (internal/extract/extractor.go, selfref.go) -/

/-- config `roots` entry: unqualified table name and optional WHERE text. -/
structure Root where
  Table : String
  Where : String
deriving DecidableEq, Repr

/-- The `rootWhere` map built at the top of `Extract`
(`rootWhere[r.Table] = r.Where`; a later entry for the same table
overwrites an earlier one; `none` models a missing key). -/
def rootWhereLookup (roots : List Root) (name : String) : Option String :=
  ((roots.filter (fun r => r.Table == name)).getLast?).map (·.Where)

/-- The two state maps of the `Extractor` (`collected`, `collectedPKs`),
keyed by table full name; a missing key is the empty slice. -/
structure ExtractState where
  collected : String → List (List Value)
  collectedPKs : String → List (List Value)

/-- The fresh state made by `extract.New`. -/
def emptyState : ExtractState :=
  { collected := fun _ => [], collectedPKs := fun _ => [] }

/-- internal/extract/extractor.go: the `colIdx` map of `pkColumnIndexes`
(`colIdx[col.Name] = i` in slice order, later duplicates overwrite; a
missing name yields the Go zero value 0). -/
def colIndexOf (cols : List Column) (name : String) : Nat :=
  cols.enum.foldl (fun acc p => if p.2.Name = name then p.1 else acc) 0

/-- internal/extract/extractor.go: `pkColumnIndexes`. -/
def pkColumnIndexes (table : Table) : List Nat :=
  match table.PrimaryKey with
  | none => []
  | some pk => pk.Columns.map (fun col => colIndexOf table.Columns col)

/-- internal/extract/extractor.go: `extractPK` — `none` models the Go `nil`
returned when the table has no PK; an index beyond the row leaves the Go
zero value `nil` (NULL) in the tuple. -/
def extractPK (table : Table) (values : List Value) : Option (List Value) :=
  match table.PrimaryKey with
  | none => none
  | some _ =>
      some ((pkColumnIndexes table).map (fun idx =>
        if idx < values.length then values.getD idx Value.vnull else Value.vnull))

/-- internal/extract/extractor.go: `addRow` — append the row to `collected`
and, when the table has a PK, the PK tuple to `collectedPKs`. -/
def addRow (table : Table) (values : List Value) (st : ExtractState) : ExtractState :=
  let fullName := table.FullName
  let collected' := fun n => if n = fullName then st.collected n ++ [values] else st.collected n
  match extractPK table values with
  | none => { collected := collected', collectedPKs := st.collectedPKs }
  | some pk =>
      { collected := collected',
        collectedPKs := fun n =>
          if n = fullName then st.collectedPKs n ++ [pk] else st.collectedPKs n }

/-- internal/extract/extractor.go: `pkSet` — the set of PK tuples of the
rows collected so far.  The Go code keys the set by `fmt.Sprintf("%v", pk)`;
equal tuples always render equally, so the set is modelled by the tuples
themselves (a rendering collision between distinct tuples could only
suppress additional rows, which none of the verified properties depend
on). -/
def pkSetOf (table : Table) (st : ExtractState) : List (Option (List Value)) :=
  (st.collected table.FullName).map (fun row => extractPK table row)

/-- internal/extract/extractor.go: the merge loop of `extractSelfRef` —
add each fetched row unless a row with the same PK tuple is already
present, maintaining the `existing` set incrementally. -/
def mergeRows (table : Table) (rows : List (List Value)) (st : ExtractState)
    (existing : List (Option (List Value))) : ExtractState :=
  match rows with
  | [] => st
  | row :: rest =>
      let key := extractPK table row
      if existing.contains key then mergeRows table rest st existing
      else mergeRows table rest (addRow table row st) (key :: existing)

/-- The query executor capability (pgx `pool.Query` + `rows.Values()` +
`rows.Err()`, collapsed to one call returning all row tuples or the first
error). -/
def QueryExecutor : Type := String → List Value → Except String (List (List Value))

/-- internal/extract/extractor.go: `extractRoot`.  Under dry-run the query
is printed and nothing is executed or collected. -/
def extractRoot (exec : QueryExecutor) (dryRun : Bool) (table : Table)
    (whereClause : String) (st : ExtractState) : Except String ExtractState :=
  let query := buildRootQuery table whereClause
  if dryRun then .ok st
  else
    match exec query [] with
    | .error e => .error e
    | .ok rows => .ok (rows.foldl (fun s r => addRow table r s) st)

/-- internal/extract/extractor.go: `extractChild`.  An empty query (no FK
condition) skips the table. -/
def extractChild (exec : QueryExecutor) (dryRun : Bool) (table : Table)
    (st : ExtractState) : Except String ExtractState :=
  let qa := buildChildQuery table st.collectedPKs
  if qa.1 = "" then .ok st
  else if dryRun then .ok st
  else
    match exec qa.1 qa.2 with
    | .error e => .error e
    | .ok rows => .ok (rows.foldl (fun s r => addRow table r s) st)

/-- internal/extract/selfref.go: `fetchSelfRefRows` — build the recursive
CTE and run it; an empty query yields no rows; an executor error is
wrapped. -/
def fetchSelfRefRows (exec : QueryExecutor) (table : Table) (fk : ForeignKey)
    (seedPKs : List (List Value)) : Except String (List (List Value)) :=
  let qa := buildSelfRefQuery table fk seedPKs
  if qa.1 = "" then .ok []
  else
    match exec qa.1 qa.2 with
    | .error e => .error ("self-ref query for " ++ table.FullName ++ ": " ++ e)
    | .ok rows => .ok rows

/-- The `for _, fk := range selfRefs` loop of `extractSelfRef`: fetch rows
for each self-ref FK and merge them in, deduplicated by PK tuple. -/
def selfRefLoop (exec : QueryExecutor) (table : Table)
    (seedPKs : List (List Value)) (fks : List ForeignKey) (st : ExtractState) :
    Except String ExtractState :=
  match fks with
  | [] => .ok st
  | fk :: rest =>
      match fetchSelfRefRows exec table fk seedPKs with
      | .error e => .error e
      | .ok extraRows =>
          selfRefLoop exec table seedPKs rest (mergeRows table extraRows st (pkSetOf table st))

/-- internal/extract/extractor.go: `extractSelfRef`.  The seed PKs are the
tuples collected before the expansion; nothing happens when none were
collected.  Under dry-run `fetchSelfRefRows` still runs with a verbose
printer but `pool.Query` is still called in Go, so dry-run reaches this
path only with an empty seed set (no rows are ever collected under
dry-run). -/
def extractSelfRef (exec : QueryExecutor) (table : Table)
    (selfRefs : List ForeignKey) (st : ExtractState) : Except String ExtractState :=
  let seedPKs := st.collectedPKs table.FullName
  if seedPKs.length = 0 then .ok st
  else selfRefLoop exec table seedPKs selfRefs st

/-- One `WriteHeader` / `WriteTableData` / `WriteFooter` call on the output
writer.  `WriteTableData` with zero rows writes nothing and is therefore
not an event. -/
inductive WriteEvent where
  | header
  | tableData (fullName : String) (rows : List (List Value))
  | footer
deriving DecidableEq, Repr

/-- The output phase of `Extract`: header, one COPY block per table with
collected rows (in traversal order, skipping unknown names and empty
tables), footer. -/
def writeAll (g : Graph) (st : ExtractState) (order : List String) : List WriteEvent :=
  [WriteEvent.header] ++
  (order.filterMap (fun name =>
    match g.TablesMap name with
    | none => none
    | some _ =>
        let rows := st.collected name
        if rows = [] then none else some (WriteEvent.tableData name rows))) ++
  [WriteEvent.footer]

/-- The root-or-child part of one iteration of the `Extract` table loop:
a table matching a user root runs the root query; otherwise a table with
parents runs the child query; otherwise it is skipped. -/
def rootOrChildStep (exec : QueryExecutor) (g : Graph)
    (rootWhere : String → Option String) (dryRun : Bool)
    (name : String) (tbl : Table) (st : ExtractState) : Except String ExtractState :=
  match rootWhere tbl.Name with
  | some w =>
      match extractRoot exec dryRun tbl w st with
      | .error e => .error ("extracting root " ++ name ++ ": " ++ e)
      | .ok st' => .ok st'
  | none =>
      if (g.Parents name).length > 0 then
        match extractChild exec dryRun tbl st with
        | .error e => .error ("extracting child " ++ name ++ ": " ++ e)
        | .ok st' => .ok st'
      else .ok st

/-- One iteration of the `Extract` table loop: root/child query, then
self-ref expansion, each error wrapped and propagated (the Go early
returns). -/
def processTable (exec : QueryExecutor) (g : Graph)
    (rootWhere : String → Option String) (dryRun : Bool)
    (name : String) (tbl : Table) (st : ExtractState) : Except String ExtractState :=
  match rootOrChildStep exec g rootWhere dryRun name tbl st with
  | .error e => .error e
  | .ok st' =>
      if (g.SelfRefs name).length > 0 then
        match extractSelfRef exec tbl (g.SelfRefs name) st' with
        | .error e => .error ("extracting self-ref " ++ name ++ ": " ++ e)
        | .ok st'' => .ok st''
      else .ok st'

/-- The `for _, tableName := range order` loop of `Extract` (unknown names
are skipped). -/
def extractLoop (exec : QueryExecutor) (g : Graph)
    (rootWhere : String → Option String) (dryRun : Bool) :
    List String → ExtractState → Except String ExtractState
  | [], st => .ok st
  | name :: rest, st =>
      match g.TablesMap name with
      | none => extractLoop exec g rootWhere dryRun rest st
      | some tbl =>
          match processTable exec g rootWhere dryRun name tbl st with
          | .error e => .error e
          | .ok st' => extractLoop exec g rootWhere dryRun rest st'

/-- The traversal order used by `Extract`: topological order with cycle
tables appended when a cycle was reported. -/
def extractOrder (g : Graph) : List String :=
  let topo := TopoSortAll g
  if topo.HasCycle then topo.Order ++ topo.CycleTables else topo.Order

/-- internal/extract/extractor.go: `Extract` — run the traversal, then
(unless dry-run) write header, COPY blocks in the same order, and footer.
The returned event list records every invocation of the output writer. -/
def Extract (exec : QueryExecutor) (g : Graph) (roots : List Root)
    (dryRun : Bool) : Except String Unit × List WriteEvent :=
  let order := extractOrder g
  match extractLoop exec g (rootWhereLookup roots) dryRun order emptyState with
  | .error e => (.error e, [])
  | .ok st =>
      if dryRun then (.ok (), [])
      else (.ok (), writeAll g st order)

/-! ## Concrete instances and invariant predicates used by the theorems -/

/-- The composite-FK example of spec §8 scenario 3. -/
def ordersFK : ForeignKey :=
  { Name := "order_lines_tenant_id_order_no_fkey", ChildSchema := "public",
    ChildTable := "order_lines", ChildColumns := ["tenant_id", "order_no"],
    ParentSchema := "public", ParentTable := "orders",
    ParentColumns := ["tenant_id", "order_no"], IsSelfRef := false,
    Virtual := "", JSONPath := "" }

/-- Collected `orders` PK tuples of spec §8 scenario 3. -/
def ordersPKs : List (List Value) :=
  [[Value.vint 1, Value.vint 100], [Value.vint 1, Value.vint 101],
   [Value.vint 2, Value.vint 200]]

/-- A parent PK set one past the cap. -/
def bigPKs : List (List Value) := List.replicate 10001 [Value.vint 0]

/-- The JSON-virtual FK of spec §8 scenario 6, as injected by
`graph.Build` for the `events.meta → users.id` virtual relation. -/
def eventsFK : ForeignKey :=
  { Name := "virtual_events_meta_users", ChildSchema := "public",
    ChildTable := "events", ChildColumns := ["meta"],
    ParentSchema := "public", ParentTable := "users",
    ParentColumns := ["id"], IsSelfRef := false,
    Virtual := "json", JSONPath := "user_id" }

/-- The `events` table of spec §8 scenario 6. -/
def eventsTable : Table :=
  { Schema := "public", Name := "events",
    Columns := [{ Name := "id", DataType := "int4", Nullable := false, OrdPos := 1 },
                { Name := "meta", DataType := "jsonb", Nullable := false, OrdPos := 2 }],
    PrimaryKey := some { Columns := ["id"] },
    ForeignKeys := [eventsFK] }

/-- Collected `users` PKs {1, 2, 5} of spec §8 scenario 6. -/
def usersCollectedPKs : String → List (List Value) := fun n =>
  if n = "public.users" then [[Value.vint 1], [Value.vint 2], [Value.vint 5]] else []

/-- Two isolated tables, shared by both enumeration orders. -/
def tablesMapAB : String → Option Table := fun n =>
  if n = "public.a" then
    some { Schema := "public", Name := "a", Columns := [],
           PrimaryKey := none, ForeignKeys := [] }
  else if n = "public.b" then
    some { Schema := "public", Name := "b", Columns := [],
           PrimaryKey := none, ForeignKeys := [] }
  else none

/-- The graph of `tablesMapAB` under one Go map iteration order. -/
def gIterA : Graph :=
  { tablesKeys := ["public.a", "public.b"], TablesMap := tablesMapAB,
    Parents := fun _ => [], SelfRefs := fun _ => [] }

/-- The same graph under the other Go map iteration order. -/
def gIterB : Graph :=
  { tablesKeys := ["public.b", "public.a"], TablesMap := tablesMapAB,
    Parents := fun _ => [], SelfRefs := fun _ => [] }

/-- A one-table schema whose only query fails. -/
def boomTable : Table :=
  { Schema := "public", Name := "t",
    Columns := [{ Name := "id", DataType := "int4", Nullable := false, OrdPos := 1 }],
    PrimaryKey := some { Columns := ["id"] }, ForeignKeys := [] }

/-- Graph holding only `boomTable`. -/
def gBoom : Graph :=
  { tablesKeys := ["public.t"],
    TablesMap := fun n => if n = "public.t" then some boomTable else none,
    Parents := fun _ => [], SelfRefs := fun _ => [] }

/-- An executor whose every query fails. -/
def execBoom : QueryExecutor := fun _ _ => .error "boom"

/-- A root set selecting `boomTable`. -/
def rootsBoom : List Root := [{ Table := "t", Where := "id = 1" }]

/-- The Go maps `g.Tables` are keyed by each table's own full name
(`Introspect` stores `tables[t.FullName()] = t`). -/
def wellKeyed (g : Graph) : Prop :=
  ∀ name tbl, g.TablesMap name = some tbl → tbl.FullName = name

/-- For every known table with a PK, as many PK tuples as rows have been
collected. -/
def pkLenInv (g : Graph) (st : ExtractState) : Prop :=
  ∀ name tbl, g.TablesMap name = some tbl → tbl.PrimaryKey ≠ none →
    (st.collectedPKs tbl.FullName).length = (st.collected tbl.FullName).length

/-- An executor returning one row `(1)` for every query. -/
def execOne : QueryExecutor := fun _ _ => .ok [[Value.vint 1]]

/-- The state after extracting the single root row of `boomTable`. -/
def stOne : ExtractState :=
  { collected := fun n => if n = "public.t" then [[Value.vint 1]] else [],
    collectedPKs := fun n => if n = "public.t" then [[Value.vint 1]] else [] }

/-- The subset-local parents of `x` (with edge multiplicity), exactly the
edges `TopoSort` counts into `inDegree[x]`. -/
def inSubsetParents (Parents : String → List String) (tables : List String)
    (x : String) : List String :=
  (Parents x).filter (fun q => tables.contains q)

/-- Loop invariant of the Kahn dequeue loop of `TopoSort`. -/
structure KahnInv (Parents : String → List String) (tables : List String)
    (queue : List String) (deg : String → Int) (order : List String) : Prop where
  ord_nodup : order.Nodup
  ord_sub : ∀ x ∈ order, x ∈ tables
  q_sub : ∀ x ∈ queue, x ∈ tables
  q_nodup : queue.Nodup
  disj : ∀ x ∈ queue, x ∉ order
  degEq : ∀ x ∈ tables,
    deg x = ((inSubsetParents Parents tables x).countP
      (fun q => !(order.contains q)) : Int)
  q_complete : ∀ x ∈ tables, x ∉ order → deg x = 0 → x ∈ queue
  q_zero : ∀ x ∈ queue, deg x = 0
  ord_parents : ∀ x p, x ∈ order → p ∈ Parents x → p ∈ tables →
    appearsBefore order p x

/-- What holds of the order and in-degree map when the dequeue loop has
drained. -/
structure KahnFinal (Parents : String → List String) (tables : List String)
    (order : List String) (degF : String → Int) : Prop where
  ord_nodup : order.Nodup
  ord_sub : ∀ x ∈ order, x ∈ tables
  degEq : ∀ x ∈ tables,
    degF x = ((inSubsetParents Parents tables x).countP
      (fun q => !(order.contains q)) : Int)
  ord_parents : ∀ x p, x ∈ order → p ∈ Parents x → p ∈ tables →
    appearsBefore order p x
  complete : ∀ x ∈ tables, x ∉ order → ¬ degF x = 0

/-- A two-table graph `b → a` for exercising the topological-order theorem. -/
def gW : Graph :=
  { tablesKeys := ["public.b", "public.a"], TablesMap := fun _ => none,
    Parents := fun n => if n = "public.b" then ["public.a"] else [],
    SelfRefs := fun _ => [] }

/-! ## Lemmas: COPY text-format escaping -/

lemma escapeString_cons (c : Char) (s : List Char) :
    escapeString (c :: s) = escapeChar c ++ escapeString s := rfl

lemma hexEncode_cons (b : Fin 256) (bs : List (Fin 256)) :
    hexEncode (b :: bs) = encodeByte b ++ hexEncode bs := rfl

lemma unescapeString_cons (c : Char) (rest : List Char) (hc : c ≠ '\\') :
    unescapeString (c :: rest) = c :: unescapeString rest := by
  cases rest <;> simp [unescapeString, hc]

lemma unescape_escapeChar (c : Char) (l : List Char) :
    unescapeString (escapeChar c ++ l) = c :: unescapeString l := by
  by_cases h1 : c = '\\'
  · subst h1; rfl
  · by_cases h2 : c = '\n'
    · subst h2; rfl
    · by_cases h3 : c = '\r'
      · subst h3; rfl
      · by_cases h4 : c = '\t'
        · subst h4; rfl
        · simp [escapeChar, h1, h2, h3, h4, unescapeString_cons _ _ h1]

lemma unescape_escapeString (s : List Char) :
    unescapeString (escapeString s) = s := by
  induction s with
  | nil => rfl
  | cons c s ih =>
      simp only [escapeString, List.flatMap_cons]
      rw [show (escapeChar c ++ s.flatMap escapeChar) =
            escapeChar c ++ escapeString s from rfl, unescape_escapeChar, ih]

lemma escapeString_ne_null_marker (s : List Char) :
    escapeString s ≠ ['\\', 'N'] := by
  intro h
  cases s with
  | nil => simp [escapeString] at h
  | cons c s =>
      rw [escapeString_cons] at h
      by_cases h1 : c = '\\'
      · subst h1; simp [escapeChar] at h
      · by_cases h2 : c = '\n'
        · subst h2; simp [escapeChar] at h
        · by_cases h3 : c = '\r'
          · subst h3; simp [escapeChar] at h
          · by_cases h4 : c = '\t'
            · subst h4; simp [escapeChar] at h
            · simp [escapeChar, h1, h2, h3, h4] at h

lemma mem_encodeByte {c : Char} {b : Fin 256} (h : c ∈ encodeByte b) :
    c ∈ hexDigits := by
  have hdiv : b.val / 16 < hexDigits.length := by
    have : b.val < 256 := b.isLt
    simp only [hexDigits, List.length]
    omega
  have hmod : b.val % 16 < hexDigits.length := by
    have : b.val % 16 < 16 := Nat.mod_lt _ (by omega)
    simp only [hexDigits, List.length]
    omega
  simp only [encodeByte, List.mem_cons, List.not_mem_nil, or_false] at h
  rcases h with rfl | rfl
  · rw [List.getD_eq_getElem _ _ hdiv]; exact List.getElem_mem hdiv
  · rw [List.getD_eq_getElem _ _ hmod]; exact List.getElem_mem hmod

lemma hexDigits_no_backslash : ∀ c ∈ hexDigits, c ≠ '\\' := by decide

lemma unescape_of_no_backslash (l : List Char) (h : ∀ c ∈ l, c ≠ '\\') :
    unescapeString l = l := by
  induction l with
  | nil => rfl
  | cons c l ih =>
      have hc : c ≠ '\\' := h c (List.mem_cons_self c l)
      rw [unescapeString_cons _ _ hc, ih fun x hx => h x (List.mem_cons_of_mem c hx)]

lemma hexVal_hexDigit : ∀ n < 16, hexVal (hexDigits.getD n '0') = some n := by decide

lemma hexDecode_hexEncode (bs : List (Fin 256)) :
    hexDecode (hexEncode bs) = some bs := by
  induction bs with
  | nil => rfl
  | cons b bs ih =>
      have h16 : (0 : Nat) < 16 := by omega
      have hdiv : b.val / 16 < 16 := by
        have : b.val < 256 := b.isLt
        omega
      have hmod : b.val % 16 < 16 := Nat.mod_lt _ h16
      rw [hexEncode_cons,
        show encodeByte b ++ hexEncode bs =
          hexDigits.getD (b.val / 16) '0' :: hexDigits.getD (b.val % 16) '0' ::
            hexEncode bs from rfl]
      simp only [hexDecode]
      rw [hexVal_hexDigit _ hdiv, hexVal_hexDigit _ hmod, ih]
      have hb : 16 * (b.val / 16) + b.val % 16 = b.val := Nat.div_add_mod b.val 16
      have hlt : 16 * (b.val / 16) + b.val % 16 < 256 := by rw [hb]; exact b.isLt
      simp only [hlt, dite_true, dif_pos]
      congr 1
      apply List.cons_eq_cons.mpr
      refine ⟨Fin.ext ?_, rfl⟩
      simpa using hb

lemma hexEncode_no_backslash (bs : List (Fin 256)) :
    ∀ c ∈ hexEncode bs, c ≠ '\\' := by
  intro c hc
  rcases List.mem_flatMap.mp hc with ⟨b, _, hb⟩
  exact hexDigits_no_backslash c (mem_encodeByte hb)

/-- Claim C6: for every value, decoding the field emitted by
`EscapeCopyValue` with the COPY text-format rules yields the value back;
the escape map sends backslash, newline, carriage-return and tab to their
two-character escapes and leaves every other character unchanged; null
encodes as the `\N` marker; and un-escaping `escapeString s` recovers `s`
for every string.  (Go `time.Time` and `Stringer` values are escaped via
their rendered string form, represented here by `vstring`, which is the
"modulo timestamp precision" proviso of the claim.) -/
theorem escape_roundtrip :
    (∀ v : CopyValue, decodeCopyField (kindOf v) (EscapeCopyValue v) = some v) ∧
    escapeChar '\\' = ['\\', '\\'] ∧ escapeChar '\n' = ['\\', 'n'] ∧
    escapeChar '\r' = ['\\', 'r'] ∧ escapeChar '\t' = ['\\', 't'] ∧
    (∀ c : Char, c ≠ '\\' → c ≠ '\n' → c ≠ '\r' → c ≠ '\t' → escapeChar c = [c]) ∧
    EscapeCopyValue CopyValue.vnull = ['\\', 'N'] ∧
    (∀ s : List Char, unescapeString (escapeString s) = s) := by
  refine ⟨?_, by decide, by decide, by decide, by decide, ?_, rfl, unescape_escapeString⟩
  · intro v
    cases v with
    | vnull => decide
    | vbool b => cases b <;> decide
    | vbytes bs =>
        have hne : ('\\' :: '\\' :: 'x' :: hexEncode bs) ≠ ['\\', 'N'] := by
          intro h
          simp only [List.cons.injEq] at h
          exact absurd h.2.1 (by decide)
        have hu : unescapeString ('\\' :: '\\' :: 'x' :: hexEncode bs) =
            '\\' :: 'x' :: hexEncode bs := by
          have h1 : unescapeString ('\\' :: '\\' :: 'x' :: hexEncode bs) =
              unescapeCode '\\' :: unescapeString ('x' :: hexEncode bs) := by
            simp [unescapeString]
          rw [h1, unescapeString_cons _ _ (by decide),
            unescape_of_no_backslash _ (hexEncode_no_backslash bs)]
          rfl
        simp only [EscapeCopyValue, kindOf, decodeCopyField, if_neg hne, hu,
          hexDecode_hexEncode]
        rfl
    | vstring s =>
        simp only [EscapeCopyValue, kindOf, decodeCopyField,
          if_neg (escapeString_ne_null_marker s), unescape_escapeString]
  · intro c h1 h2 h3 h4
    simp [escapeChar, h1, h2, h3, h4]

/-- Witness for C6 at concrete inputs: an ordinary character is left
unchanged by the escape map. -/
theorem escape_roundtrip_witness :
    ('a' ≠ '\\' ∧ 'a' ≠ '\n' ∧ 'a' ≠ '\r' ∧ 'a' ≠ '\t') ∧ escapeChar 'a' = ['a'] :=
  ⟨⟨by decide, by decide, by decide, by decide⟩,
    escape_roundtrip.2.2.2.2.2.1 'a' (by decide) (by decide) (by decide) (by decide)⟩

lemma hexDigits_no_delims : ∀ c ∈ hexDigits, c ≠ '\t' ∧ c ≠ '\n' ∧ c ≠ '\r' := by
  decide

/-- Claim C10: for every supported value kind, the field emitted by
`EscapeCopyValue` contains no literal tab, newline or carriage-return
character, so tab-separated field boundaries and newline-terminated row
boundaries of the COPY block are unambiguous. -/
theorem escape_no_delimiters :
    ∀ v : CopyValue, ∀ c ∈ EscapeCopyValue v, c ≠ '\t' ∧ c ≠ '\n' ∧ c ≠ '\r' := by
  intro v c hc
  cases v with
  | vnull =>
      simp only [EscapeCopyValue, List.mem_cons, List.not_mem_nil, or_false] at hc
      rcases hc with rfl | rfl <;> exact ⟨by decide, by decide, by decide⟩
  | vbool b =>
      cases b <;>
        simp only [EscapeCopyValue, List.mem_cons, List.not_mem_nil, or_false] at hc <;>
        subst hc <;> exact ⟨by decide, by decide, by decide⟩
  | vbytes bs =>
      simp only [EscapeCopyValue, List.mem_cons] at hc
      rcases hc with rfl | rfl | rfl | hc
      · exact ⟨by decide, by decide, by decide⟩
      · exact ⟨by decide, by decide, by decide⟩
      · exact ⟨by decide, by decide, by decide⟩
      · rcases List.mem_flatMap.mp hc with ⟨b, _, hb⟩
        exact hexDigits_no_delims c (mem_encodeByte hb)
  | vstring s =>
      rcases List.mem_flatMap.mp hc with ⟨a, _, ha⟩
      by_cases h1 : a = '\\'
      · subst h1
        rw [show escapeChar '\\' = ['\\', '\\'] from by decide] at ha
        simp only [List.mem_cons, List.not_mem_nil, or_false, or_self] at ha
        subst ha
        exact ⟨by decide, by decide, by decide⟩
      · by_cases h2 : a = '\n'
        · subst h2
          rw [show escapeChar '\n' = ['\\', 'n'] from by decide] at ha
          simp only [List.mem_cons, List.not_mem_nil, or_false] at ha
          rcases ha with rfl | rfl <;> exact ⟨by decide, by decide, by decide⟩
        · by_cases h3 : a = '\r'
          · subst h3
            rw [show escapeChar '\r' = ['\\', 'r'] from by decide] at ha
            simp only [List.mem_cons, List.not_mem_nil, or_false] at ha
            rcases ha with rfl | rfl <;> exact ⟨by decide, by decide, by decide⟩
          · by_cases h4 : a = '\t'
            · subst h4
              rw [show escapeChar '\t' = ['\\', 't'] from by decide] at ha
              simp only [List.mem_cons, List.not_mem_nil, or_false] at ha
              rcases ha with rfl | rfl <;> exact ⟨by decide, by decide, by decide⟩
            · rw [show escapeChar a = [a] from by simp [escapeChar, h1, h2, h3, h4]] at ha
              simp only [List.mem_cons, List.not_mem_nil, or_false] at ha
              subst ha
              exact ⟨h4, h2, h3⟩

/-- Witness for C10 at a concrete value whose raw form does contain a tab. -/
theorem escape_no_delimiters_witness :
    '\\' ∈ EscapeCopyValue (CopyValue.vstring ['x', '\t']) ∧
      '\\' ≠ '\t' ∧ '\\' ≠ '\n' ∧ '\\' ≠ '\r' :=
  ⟨by decide, escape_no_delimiters (CopyValue.vstring ['x', '\t']) '\\' (by decide)⟩

/-! ## Lemmas: child-query builder -/

lemma matchNullable (o : Option Column) :
    (match o with | some col => col.Nullable | none => false) = true ↔
      ∃ col, o = some col ∧ col.Nullable = true := by
  cases o <;> simp

lemma getD_drop_one (pk : List Value) (j : Nat) (d : Value) :
    (pk.drop 1).getD j d = pk.getD (1 + j) d := by
  simp only [List.getD, List.get?_eq_getElem?, List.getElem?_drop]

lemma tupleFor_args (cols : List String) : ∀ (pk : List Value) (i : Nat),
    (tupleFor cols pk i).2.1 =
      (List.range cols.length).map (fun j => pk.getD j Value.vnull) := by
  induction cols with
  | nil => intro pk i; rfl
  | cons c cols ih =>
      intro pk i
      simp only [tupleFor, ih, List.length_cons, List.range_succ_eq_map,
        List.map_cons, List.map_map]
      congr 1
      · cases pk <;> rfl
      · apply List.map_congr_left
        intro j _
        simp [Function.comp, getD_drop_one, Nat.add_comm]

lemma tupleFor_idx (cols : List String) : ∀ (pk : List Value) (i : Nat),
    (tupleFor cols pk i).2.2 = i + cols.length := by
  induction cols with
  | nil => intro pk i; simp [tupleFor]
  | cons c cols ih => intro pk i; simp [tupleFor, ih]; omega

lemma allTuples_args (cols : List String) : ∀ (pks : List (List Value)) (i : Nat),
    (allTuples cols pks i).2.1 =
      pks.flatMap (fun pk =>
        (List.range cols.length).map (fun j => pk.getD j Value.vnull)) := by
  intro pks
  induction pks with
  | nil => intro i; rfl
  | cons pk pks ih =>
      intro i
      simp only [allTuples, List.flatMap_cons, ih, tupleFor_args]

lemma allTuples_count (cols : List String) : ∀ (pks : List (List Value)) (i : Nat),
    (allTuples cols pks i).1.length = pks.length := by
  intro pks
  induction pks with
  | nil => intro i; rfl
  | cons pk pks ih => intro i; simp only [allTuples, List.length_cons, ih]

/-- Claim C4: for a non-self FK with at least one nullable child column the
condition is wrapped as `(<cond> OR <childCol> IS NULL)` in the single-column
case and `(<cond> OR (<col1> IS NULL AND <col2> IS NULL AND …))` in the
composite case, leaving bind arguments and parameter index unchanged; with
`nullable = false` no wrapping is added (the builders return the bare IN
condition); and `isFKNullable` holds exactly when some child column resolves
to a nullable column of the table. -/
theorem nullable_fk_wrapping :
    ∀ (table : Table) (fk : ForeignKey) (pks : List (List Value)) (i : Nat),
      (buildSingleColumnIN fk pks true i).1 =
        "(" ++ (buildSingleColumnIN fk pks false i).1 ++ " OR " ++
          fk.ChildColumns.getD 0 "" ++ " IS NULL)" ∧
      (buildSingleColumnIN fk pks true i).2 = (buildSingleColumnIN fk pks false i).2 ∧
      (buildCompositeIN fk pks true i).1 =
        "(" ++ (buildCompositeIN fk pks false i).1 ++ " OR (" ++
          String.intercalate " AND "
            (fk.ChildColumns.map (fun c => c ++ " IS NULL")) ++ "))" ∧
      (buildCompositeIN fk pks true i).2 = (buildCompositeIN fk pks false i).2 ∧
      (isFKNullable table fk = true ↔ ∃ colName ∈ fk.ChildColumns,
        ∃ col, lookupColumn table.Columns colName = some col ∧ col.Nullable = true) := by
  intro table fk pks i
  refine ⟨?_, ?_, ?_, ?_, ?_⟩
  · simp [buildSingleColumnIN]
  · simp [buildSingleColumnIN]
  · simp [buildCompositeIN]
  · simp [buildCompositeIN]
  · simp only [isFKNullable, List.any_eq_true]
    constructor
    · rintro ⟨colName, hmem, hp⟩
      exact ⟨colName, hmem, (matchNullable _).mp hp⟩
    · rintro ⟨colName, hmem, hp⟩
      exact ⟨colName, hmem, (matchNullable _).mpr hp⟩

/-- Claim C5: the composite IN condition has one placeholder tuple per
parent PK tuple, binding `pk[j]` at position `j` and NULL when the tuple is
shorter than the FK arity; on the `order_lines` example the emitted
predicate and binds are exactly those of the spec. -/
theorem composite_fk_in :
    buildCompositeIN ordersFK ordersPKs false 1 =
      ("(tenant_id, order_no) IN (($1, $2), ($3, $4), ($5, $6))",
       [Value.vint 1, Value.vint 100, Value.vint 1, Value.vint 101,
        Value.vint 2, Value.vint 200], 7) ∧
    ∀ (fk : ForeignKey) (pks : List (List Value)) (nb : Bool) (i : Nat),
      pks.length ≤ 10000 →
        (buildCompositeIN fk pks nb i).2.1 =
          pks.flatMap (fun pk =>
            (List.range fk.ChildColumns.length).map (fun j => pk.getD j Value.vnull)) ∧
        (allTuples fk.ChildColumns pks i).1.length = pks.length := by
  constructor
  · decide
  · intro fk pks nb i h
    have hnot : ¬(pks.length > 10000) := by omega
    constructor
    · simp [buildCompositeIN, hnot, allTuples_args]
    · exact allTuples_count _ _ _

/-- Witness for C5 at the concrete `order_lines` example. -/
theorem composite_fk_in_witness :
    ordersPKs.length ≤ 10000 ∧
      (buildCompositeIN ordersFK ordersPKs false 1).2.1 =
        ordersPKs.flatMap (fun pk =>
          (List.range ordersFK.ChildColumns.length).map
            (fun j => pk.getD j Value.vnull)) :=
  ⟨by decide, (composite_fk_in.2 ordersFK ordersPKs false 1 (by decide)).1⟩

/-- Claim C8: above 10,000 parent PK entries the builders truncate to the
first 10,000 tuples and behave exactly as if called on that prefix; at or
below the cap every tuple contributes its binds. -/
theorem value_set_cap :
    ∀ (fk : ForeignKey) (pks : List (List Value)) (nb : Bool) (i : Nat),
      (10000 < pks.length →
        buildSingleColumnIN fk pks nb i = buildSingleColumnIN fk (pks.take 10000) nb i ∧
        buildCompositeIN fk pks nb i = buildCompositeIN fk (pks.take 10000) nb i) ∧
      (pks.length ≤ 10000 →
        (buildSingleColumnIN fk pks nb i).2.1 =
          pks.map (fun pk => pk.getD 0 Value.vnull) ∧
        (buildSingleColumnIN fk pks nb i).2.2 = i + pks.length ∧
        (buildCompositeIN fk pks nb i).2.1 =
          pks.flatMap (fun pk =>
            (List.range fk.ChildColumns.length).map (fun j => pk.getD j Value.vnull))) := by
  intro fk pks nb i
  constructor
  · intro h
    have h1 : ¬((pks.take 10000).length > 10000) := by
      simp [List.length_take]
    have e1 : (if pks.length > 10000 then pks.take 10000 else pks) =
        pks.take 10000 := if_pos h
    have e2 : (if (pks.take 10000).length > 10000 then
          (pks.take 10000).take 10000 else pks.take 10000) =
        pks.take 10000 := if_neg h1
    constructor
    · simp only [buildSingleColumnIN, e1, e2]
    · simp only [buildCompositeIN, e1, e2]
  · intro h
    have hnot : ¬(pks.length > 10000) := by omega
    exact ⟨by simp [buildSingleColumnIN, hnot],
           by simp [buildSingleColumnIN, hnot],
           by simp [buildCompositeIN, hnot, allTuples_args]⟩

/-- Witness for C8: truncation fires one past the cap, and the small
composite example uses every tuple. -/
theorem value_set_cap_witness :
    (10000 < bigPKs.length ∧
      buildSingleColumnIN ordersFK bigPKs false 1 =
        buildSingleColumnIN ordersFK (bigPKs.take 10000) false 1) ∧
    (ordersPKs.length ≤ 10000 ∧
      (buildSingleColumnIN ordersFK ordersPKs false 1).2.2 =
        1 + ordersPKs.length) :=
  ⟨⟨by simp only [bigPKs, List.length_replicate]; omega,
    ((value_set_cap ordersFK bigPKs false 1).1
      (by simp only [bigPKs, List.length_replicate]; omega)).1⟩,
   ⟨by decide, ((value_set_cap ordersFK ordersPKs false 1).2 (by decide)).2.1⟩⟩

/-- Claim C2 (evidence of a code bug): with a JSON-virtual FK whose parent
has collected PKs {1, 2, 5}, `buildChildQuery` emits the plain scalar
condition `meta IN ($1, $2, $3)` — it never consults `Virtual`/`JSONPath`
— and not the documented `(meta->>\x27user_id\x27) IN (…)` form. -/
theorem json_virtual_fk_predicate :
    buildChildQuery eventsTable usersCollectedPKs =
      ("SELECT * FROM public.events WHERE meta IN ($1, $2, $3)",
       [Value.vint 1, Value.vint 2, Value.vint 5]) ∧
    (buildChildQuery eventsTable usersCollectedPKs).1 ≠
      "SELECT * FROM public.events WHERE (meta->>\x27user_id\x27) IN ($1, $2, $3)" := by
  constructor
  · decide
  · decide

/-! ## Topological-sort determinism (C9) and extraction control flow (C3) -/

/-- Claim C9 (evidence of a code bug): `TopoSort`/`TopoSortAll` perform no
sorting, so over one and the same graph — identical table set, identical
edges — the returned `Order` depends on the iteration order of the Go map
`g.Tables`, which Go randomizes per run.  The claimed stabilization
(sorted neighbor iteration) does not exist in the code. -/
theorem toposort_not_stabilized :
    gIterA.tablesKeys.toFinset = gIterB.tablesKeys.toFinset ∧
    gIterA.TablesMap = gIterB.TablesMap ∧
    gIterA.Parents = gIterB.Parents ∧
    gIterA.SelfRefs = gIterB.SelfRefs ∧
    (TopoSortAll gIterA).Order = ["public.a", "public.b"] ∧
    (TopoSortAll gIterB).Order = ["public.b", "public.a"] ∧
    (TopoSortAll gIterA).Order ≠ (TopoSortAll gIterB).Order :=
  ⟨by decide, rfl, rfl, rfl, by decide, by decide, by decide⟩

/-- Claim C3: an error from any extraction query makes `Extract` return that
error with an empty writer trace (no header, no COPY block); the writer is
invoked (trace nonempty) only when the whole extraction loop succeeded on a
non-dry run; a dry run writes nothing. -/
theorem extract_no_partial_output :
    ∀ (exec : QueryExecutor) (g : Graph) (roots : List Root) (dryRun : Bool),
      (∀ e, extractLoop exec g (rootWhereLookup roots) dryRun (extractOrder g)
          emptyState = .error e →
        Extract exec g roots dryRun = (.error e, [])) ∧
      (dryRun = true → (Extract exec g roots dryRun).2 = []) ∧
      ((Extract exec g roots dryRun).2 ≠ [] →
        dryRun = false ∧
        ∃ st, extractLoop exec g (rootWhereLookup roots) dryRun (extractOrder g)
          emptyState = .ok st) := by
  intro exec g roots dryRun
  refine ⟨?_, ?_, ?_⟩
  · intro e he
    simp [Extract, he]
  · intro hd
    subst hd
    cases hl : extractLoop exec g (rootWhereLookup roots) true (extractOrder g)
        emptyState <;> simp [Extract, hl]
  · intro hne
    cases hl : extractLoop exec g (rootWhereLookup roots) dryRun (extractOrder g)
        emptyState with
    | error e => exact absurd (by simp [Extract, hl]) hne
    | ok st =>
        cases dryRun with
        | true => exact absurd (by simp [Extract, hl]) hne
        | false => exact ⟨rfl, st, rfl⟩

/-- Witness for C3: with a failing executor the root query's error is
propagated (wrapped with its table context) and no writer event occurs;
a dry run also writes nothing. -/
theorem extract_no_partial_output_witness :
    Extract execBoom gBoom rootsBoom false =
      (.error "extracting root public.t: boom", []) ∧
    (Extract execBoom gBoom rootsBoom true).2 = [] :=
  ⟨(extract_no_partial_output execBoom gBoom rootsBoom false).1
      "extracting root public.t: boom" (by rfl),
   (extract_no_partial_output execBoom gBoom rootsBoom true).2.1 rfl⟩

/-! ## Extractor state invariants (C7) -/

lemma addRow_collected (table : Table) (v : List Value) (st : ExtractState) (n : String) :
    (addRow table v st).collected n =
      if n = table.FullName then st.collected n ++ [v] else st.collected n := by
  unfold addRow
  cases h : extractPK table v <;> rfl

lemma addRow_collectedPKs_none (table : Table) (v : List Value) (st : ExtractState)
    (h : table.PrimaryKey = none) (n : String) :
    (addRow table v st).collectedPKs n = st.collectedPKs n := by
  unfold addRow extractPK
  rw [h]

lemma addRow_collectedPKs_some (table : Table) (v : List Value) (st : ExtractState)
    {pk : List Value} (h : extractPK table v = some pk) (n : String) :
    (addRow table v st).collectedPKs n =
      if n = table.FullName then st.collectedPKs n ++ [pk] else st.collectedPKs n := by
  unfold addRow
  rw [h]

lemma extractPK_eq_none (table : Table) (v : List Value) :
    extractPK table v = none ↔ table.PrimaryKey = none := by
  unfold extractPK
  cases table.PrimaryKey <;> simp

lemma addRow_pkLenInv (g : Graph) (hwk : wellKeyed g) {name : String} {tbl : Table}
    (hmem : g.TablesMap name = some tbl) (v : List Value) {st : ExtractState}
    (h : pkLenInv g st) : pkLenInv g (addRow tbl v st) := by
  intro name' tbl' hmem' hpk'
  by_cases hfn : tbl'.FullName = tbl.FullName
  · have hn : name' = name := by rw [← hwk _ _ hmem', ← hwk _ _ hmem, hfn]
    subst hn
    have htt : tbl' = tbl := by
      rw [hmem] at hmem'
      injection hmem' with he
      exact he.symm
    subst htt
    rcases hex : extractPK tbl' v with _ | pk
    · exact absurd ((extractPK_eq_none _ _).mp hex) hpk'
    · rw [addRow_collected, addRow_collectedPKs_some _ _ _ hex, if_pos rfl, if_pos rfl,
        List.length_append, List.length_append, h _ _ hmem' hpk']
      rfl
  · rcases hex : extractPK tbl v with _ | pk
    · rw [addRow_collected, addRow_collectedPKs_none _ _ _ ((extractPK_eq_none _ _).mp hex),
        if_neg hfn]
      exact h _ _ hmem' hpk'
    · rw [addRow_collected, addRow_collectedPKs_some _ _ _ hex, if_neg hfn, if_neg hfn]
      exact h _ _ hmem' hpk'

lemma foldl_addRow_pkLenInv (g : Graph) (hwk : wellKeyed g) {name : String} {tbl : Table}
    (hmem : g.TablesMap name = some tbl) (rows : List (List Value)) :
    ∀ {st : ExtractState}, pkLenInv g st →
      pkLenInv g (rows.foldl (fun s r => addRow tbl r s) st) := by
  induction rows with
  | nil => intro st h; exact h
  | cons r rows ih =>
      intro st h
      exact ih (addRow_pkLenInv g hwk hmem r h)

lemma extractRoot_pkLenInv (g : Graph) (hwk : wellKeyed g) {name : String} {tbl : Table}
    (hmem : g.TablesMap name = some tbl) (exec : QueryExecutor) (dryRun : Bool)
    (w : String) {st st' : ExtractState} (h : pkLenInv g st)
    (hok : extractRoot exec dryRun tbl w st = .ok st') : pkLenInv g st' := by
  unfold extractRoot at hok
  by_cases hd : dryRun = true
  · rw [if_pos hd] at hok
    injection hok with hok
    subst hok
    exact h
  · rw [if_neg hd] at hok
    cases hq : exec (buildRootQuery tbl w) [] with
    | error e => rw [hq] at hok; exact absurd hok (by simp)
    | ok rows =>
        rw [hq] at hok
        injection hok with hok
        subst hok
        exact foldl_addRow_pkLenInv g hwk hmem rows h

lemma extractChild_pkLenInv (g : Graph) (hwk : wellKeyed g) {name : String} {tbl : Table}
    (hmem : g.TablesMap name = some tbl) (exec : QueryExecutor) (dryRun : Bool)
    {st st' : ExtractState} (h : pkLenInv g st)
    (hok : extractChild exec dryRun tbl st = .ok st') : pkLenInv g st' := by
  unfold extractChild at hok
  by_cases hq : (buildChildQuery tbl st.collectedPKs).1 = ""
  · rw [if_pos hq] at hok
    injection hok with hok
    subst hok
    exact h
  · rw [if_neg hq] at hok
    by_cases hd : dryRun = true
    · rw [if_pos hd] at hok
      injection hok with hok
      subst hok
      exact h
    · rw [if_neg hd] at hok
      cases hr : exec (buildChildQuery tbl st.collectedPKs).1
          (buildChildQuery tbl st.collectedPKs).2 with
      | error e => rw [hr] at hok; exact absurd hok (by simp)
      | ok rows =>
          rw [hr] at hok
          injection hok with hok
          subst hok
          exact foldl_addRow_pkLenInv g hwk hmem rows h

lemma mergeRows_pkLenInv (g : Graph) (hwk : wellKeyed g) {name : String} {tbl : Table}
    (hmem : g.TablesMap name = some tbl) (rows : List (List Value)) :
    ∀ (st : ExtractState) (existing : List (Option (List Value))), pkLenInv g st →
      pkLenInv g (mergeRows tbl rows st existing) := by
  induction rows with
  | nil => intro st existing h; exact h
  | cons row rest ih =>
      intro st existing h
      unfold mergeRows
      by_cases hc : existing.contains (extractPK tbl row) = true
      · rw [if_pos hc]
        exact ih st existing h
      · rw [if_neg hc]
        exact ih _ _ (addRow_pkLenInv g hwk hmem row h)

lemma selfRefLoop_pkLenInv (g : Graph) (hwk : wellKeyed g) {name : String} {tbl : Table}
    (hmem : g.TablesMap name = some tbl) (exec : QueryExecutor)
    (seedPKs : List (List Value)) (fks : List ForeignKey) :
    ∀ {st st' : ExtractState}, pkLenInv g st →
      selfRefLoop exec tbl seedPKs fks st = .ok st' → pkLenInv g st' := by
  induction fks with
  | nil =>
      intro st st' h hok
      injection hok with hok
      subst hok
      exact h
  | cons fk rest ih =>
      intro st st' h hok
      unfold selfRefLoop at hok
      cases hf : fetchSelfRefRows exec tbl fk seedPKs with
      | error e => rw [hf] at hok; exact absurd hok (by simp)
      | ok extraRows =>
          rw [hf] at hok
          exact ih (mergeRows_pkLenInv g hwk hmem extraRows _ _ h) hok

lemma extractSelfRef_pkLenInv (g : Graph) (hwk : wellKeyed g) {name : String} {tbl : Table}
    (hmem : g.TablesMap name = some tbl) (exec : QueryExecutor)
    (fks : List ForeignKey) {st st' : ExtractState} (h : pkLenInv g st)
    (hok : extractSelfRef exec tbl fks st = .ok st') : pkLenInv g st' := by
  unfold extractSelfRef at hok
  by_cases hs : (st.collectedPKs tbl.FullName).length = 0
  · rw [if_pos hs] at hok
    injection hok with hok
    subst hok
    exact h
  · rw [if_neg hs] at hok
    exact selfRefLoop_pkLenInv g hwk hmem exec _ fks h hok

lemma rootOrChildStep_pkLenInv (exec : QueryExecutor) (g : Graph)
    (rootWhere : String → Option String) (dryRun : Bool) (hwk : wellKeyed g)
    {name : String} {tbl : Table} (hmem : g.TablesMap name = some tbl)
    {st st' : ExtractState} (h : pkLenInv g st)
    (hok : rootOrChildStep exec g rootWhere dryRun name tbl st = .ok st') :
    pkLenInv g st' := by
  unfold rootOrChildStep at hok
  rcases hrw : rootWhere tbl.Name with _ | w
  · rw [hrw] at hok
    simp only [] at hok
    by_cases hp : (g.Parents name).length > 0
    · rw [if_pos hp] at hok
      cases hc : extractChild exec dryRun tbl st with
      | error e => rw [hc] at hok; exact absurd hok (by simp)
      | ok st2 =>
          rw [hc] at hok
          injection hok with hok
          subst hok
          exact extractChild_pkLenInv g hwk hmem exec dryRun h hc
    · rw [if_neg hp] at hok
      injection hok with hok
      subst hok
      exact h
  · rw [hrw] at hok
    simp only [] at hok
    cases hc : extractRoot exec dryRun tbl w st with
    | error e => rw [hc] at hok; exact absurd hok (by simp)
    | ok st2 =>
        rw [hc] at hok
        injection hok with hok
        subst hok
        exact extractRoot_pkLenInv g hwk hmem exec dryRun w h hc

lemma processTable_pkLenInv (exec : QueryExecutor) (g : Graph)
    (rootWhere : String → Option String) (dryRun : Bool) (hwk : wellKeyed g)
    {name : String} {tbl : Table} (hmem : g.TablesMap name = some tbl)
    {st st' : ExtractState} (h : pkLenInv g st)
    (hok : processTable exec g rootWhere dryRun name tbl st = .ok st') :
    pkLenInv g st' := by
  unfold processTable at hok
  cases hstep : rootOrChildStep exec g rootWhere dryRun name tbl st with
  | error e => rw [hstep] at hok; exact absurd hok (by simp)
  | ok st1 =>
      rw [hstep] at hok
      simp only [] at hok
      have h1 : pkLenInv g st1 :=
        rootOrChildStep_pkLenInv exec g rootWhere dryRun hwk hmem h hstep
      by_cases hsr : (g.SelfRefs name).length > 0
      · rw [if_pos hsr] at hok
        cases hs : extractSelfRef exec tbl (g.SelfRefs name) st1 with
        | error e => rw [hs] at hok; exact absurd hok (by simp)
        | ok st2 =>
            rw [hs] at hok
            injection hok with hok
            subst hok
            exact extractSelfRef_pkLenInv g hwk hmem exec _ h1 hs
      · rw [if_neg hsr] at hok
        injection hok with hok
        subst hok
        exact h1

lemma extractLoop_pkLenInv (exec : QueryExecutor) (g : Graph)
    (rootWhere : String → Option String) (dryRun : Bool) (hwk : wellKeyed g) :
    ∀ (order : List String) {st st' : ExtractState}, pkLenInv g st →
      extractLoop exec g rootWhere dryRun order st = .ok st' → pkLenInv g st' := by
  intro order
  induction order with
  | nil =>
      intro st st' h hok
      injection hok with hok
      subst hok
      exact h
  | cons name rest ih =>
      intro st st' h hok
      unfold extractLoop at hok
      cases hm : g.TablesMap name with
      | none => rw [hm] at hok; exact ih h hok
      | some tbl =>
          rw [hm] at hok
          simp only [] at hok
          cases hp : processTable exec g rootWhere dryRun name tbl st with
          | error e => rw [hp] at hok; exact absurd hok (by simp)
          | ok st1 =>
              rw [hp] at hok
              exact ih (processTable_pkLenInv exec g rootWhere dryRun hwk hm h hp) hok

lemma pkSetOf_addRow (tbl : Table) (row : List Value) (st : ExtractState) :
    pkSetOf tbl (addRow tbl row st) = pkSetOf tbl st ++ [extractPK tbl row] := by
  unfold pkSetOf
  rw [addRow_collected, if_pos rfl, List.map_append]
  rfl

lemma mergeRows_nodup (tbl : Table) (rows : List (List Value)) :
    ∀ (st : ExtractState) (existing : List (Option (List Value))),
      (pkSetOf tbl st).Nodup → (∀ k ∈ pkSetOf tbl st, k ∈ existing) →
      (pkSetOf tbl (mergeRows tbl rows st existing)).Nodup := by
  induction rows with
  | nil => intro st existing h _; exact h
  | cons row rest ih =>
      intro st existing h hsub
      unfold mergeRows
      by_cases hc : existing.contains (extractPK tbl row) = true
      · rw [if_pos hc]
        exact ih st existing h hsub
      · rw [if_neg hc]
        have hkey : extractPK tbl row ∉ pkSetOf tbl st := by
          intro hk
          exact hc (List.elem_eq_true_of_mem (hsub _ hk))
        apply ih
        · rw [pkSetOf_addRow, List.nodup_append]
          refine ⟨h, List.nodup_singleton _, ?_⟩
          intro x hx hx'
          rw [List.mem_singleton] at hx'
          subst hx'
          exact hkey hx
        · rw [pkSetOf_addRow]
          intro k hk
          rcases List.mem_append.mp hk with hk | hk
          · exact List.mem_cons_of_mem _ (hsub _ hk)
          · rw [List.mem_singleton] at hk
            subst hk
            exact List.mem_cons_self _ _

lemma selfRefLoop_nodup (exec : QueryExecutor) (tbl : Table)
    (seedPKs : List (List Value)) (fks : List ForeignKey) :
    ∀ {st st' : ExtractState}, (pkSetOf tbl st).Nodup →
      selfRefLoop exec tbl seedPKs fks st = .ok st' → (pkSetOf tbl st').Nodup := by
  induction fks with
  | nil =>
      intro st st' h hok
      injection hok with hok
      subst hok
      exact h
  | cons fk rest ih =>
      intro st st' h hok
      unfold selfRefLoop at hok
      cases hf : fetchSelfRefRows exec tbl fk seedPKs with
      | error e => rw [hf] at hok; exact absurd hok (by simp)
      | ok extraRows =>
          rw [hf] at hok
          exact ih (mergeRows_nodup tbl extraRows st _ h (fun k hk => hk)) hok

lemma extractSelfRef_nodup (exec : QueryExecutor) (tbl : Table)
    (fks : List ForeignKey) {st st' : ExtractState}
    (h : (pkSetOf tbl st).Nodup)
    (hok : extractSelfRef exec tbl fks st = .ok st') : (pkSetOf tbl st').Nodup := by
  unfold extractSelfRef at hok
  by_cases hs : (st.collectedPKs tbl.FullName).length = 0
  · rw [if_pos hs] at hok
    injection hok with hok
    subst hok
    exact h
  · rw [if_neg hs] at hok
    exact selfRefLoop_nodup exec tbl _ fks h hok

/-- Claim C7: at every point of the extraction, every known table with a PK
has exactly one collected PK tuple per collected row (the invariant holds
initially and is preserved by the whole table loop), and self-ref expansion
preserves pairwise-distinct PK tuples because a fetched row whose PK tuple
is already present is not added. -/
theorem collected_pk_invariant :
    (∀ g : Graph, pkLenInv g emptyState) ∧
    (∀ (exec : QueryExecutor) (g : Graph) (rootWhere : String → Option String)
       (dryRun : Bool) (order : List String) (st st' : ExtractState),
       wellKeyed g → pkLenInv g st →
       extractLoop exec g rootWhere dryRun order st = .ok st' → pkLenInv g st') ∧
    (∀ (exec : QueryExecutor) (table : Table) (fks : List ForeignKey)
       (st st' : ExtractState),
       (pkSetOf table st).Nodup →
       extractSelfRef exec table fks st = .ok st' → (pkSetOf table st').Nodup) ∧
    (∀ (table : Table) (row : List Value) (rest : List (List Value))
       (st : ExtractState),
       extractPK table row ∈ pkSetOf table st →
       mergeRows table (row :: rest) st (pkSetOf table st) =
         mergeRows table rest st (pkSetOf table st)) := by
  refine ⟨?_, ?_, ?_, ?_⟩
  · intro g name tbl _ _
    rfl
  · intro exec g rootWhere dryRun order st st' hwk h hok
    exact extractLoop_pkLenInv exec g rootWhere dryRun hwk order h hok
  · intro exec table fks st st' h hok
    exact extractSelfRef_nodup exec table fks h hok
  · intro table row rest st h
    have hstep : mergeRows table (row :: rest) st (pkSetOf table st) =
        if (pkSetOf table st).contains (extractPK table row) = true then
          mergeRows table rest st (pkSetOf table st)
        else
          mergeRows table rest (addRow table row st)
            (extractPK table row :: pkSetOf table st) := rfl
    rw [hstep, if_pos (List.elem_eq_true_of_mem h)]

/-- Witness for C7 at a concrete successful run: one root row is collected
together with its PK tuple, and the invariant holds for the result. -/
theorem collected_pk_invariant_witness :
    wellKeyed gBoom ∧
    extractLoop execOne gBoom (rootWhereLookup rootsBoom) false
      (extractOrder gBoom) emptyState = .ok stOne ∧
    pkLenInv gBoom stOne ∧
    (pkSetOf boomTable stOne).Nodup ∧
    extractSelfRef execOne boomTable [] stOne = .ok stOne ∧
    extractPK boomTable [Value.vint 1] ∈ pkSetOf boomTable stOne ∧
    mergeRows boomTable [[Value.vint 1]] stOne (pkSetOf boomTable stOne) =
      mergeRows boomTable [] stOne (pkSetOf boomTable stOne) := by
  have hwk : wellKeyed gBoom := by
    intro name tbl h
    change (if name = "public.t" then some boomTable else none) = some tbl at h
    by_cases hn : name = "public.t"
    · rw [if_pos hn] at h
      injection h with h
      rw [← h, hn]
      rfl
    · rw [if_neg hn] at h
      exact Option.noConfusion h
  have hloop : extractLoop execOne gBoom (rootWhereLookup rootsBoom) false
      (extractOrder gBoom) emptyState = .ok stOne := by rfl
  have hnd : (pkSetOf boomTable stOne).Nodup := by decide
  refine ⟨hwk, hloop, ?_, ?_, rfl, ?_, ?_⟩
  · exact collected_pk_invariant.2.1 execOne gBoom (rootWhereLookup rootsBoom) false
      (extractOrder gBoom) emptyState stOne hwk (collected_pk_invariant.1 gBoom) hloop
  · exact collected_pk_invariant.2.2.1 execOne boomTable [] stOne stOne hnd rfl
  · decide
  · exact collected_pk_invariant.2.2.2 boomTable [Value.vint 1] [] stOne (by decide)

/-! ## Kahn topological sort: invariants and the ordering theorem (C1) -/

lemma contains_true_iff (l : List String) (a : String) :
    l.contains a = true ↔ a ∈ l := List.elem_iff

lemma contains_false_of_not_mem {l : List String} {a : String} (h : a ∉ l) :
    l.contains a = false := by
  rw [← Bool.not_eq_true]
  exact fun hc => h ((contains_true_iff l a).mp hc)

lemma processChildren_deg (cs : List String) :
    ∀ (deg : String → Int) (q : List String) (x : String),
      (processChildren cs deg q).1 x = deg x - (cs.count x : Int) := by
  induction cs with
  | nil => intro deg q x; simp [processChildren]
  | cons c rest ih =>
      intro deg q x
      simp only [processChildren]
      rw [ih]
      by_cases hx : x = c
      · subst hx
        rw [if_pos rfl, List.count_cons_self]
        push_cast
        ring
      · rw [if_neg hx, List.count_cons_of_ne hx]

lemma processChildren_queue_mem (cs : List String) :
    ∀ (deg : String → Int) (q : List String) (x : String),
      (x ∈ (processChildren cs deg q).2) ↔
        x ∈ q ∨ (1 ≤ deg x ∧ deg x ≤ (cs.count x : Int)) := by
  induction cs with
  | nil =>
      intro deg q x
      simp only [processChildren, List.count_nil]
      constructor
      · exact Or.inl
      · rintro (h | ⟨h1, h2⟩)
        · exact h
        · exfalso
          omega
  | cons c rest ih =>
      intro deg q x
      simp only [processChildren]
      rw [ih]
      by_cases hx : x = c
      · subst hx
        rw [if_pos rfl, List.count_cons_self]
        by_cases hc : deg x - 1 = 0
        · rw [if_pos hc]
          constructor
          · intro _
            right
            push_cast
            omega
          · intro _
            left
            exact List.mem_append_right _ (by simp)
        · rw [if_neg hc]
          constructor
          · rintro (h | ⟨h1, h2⟩)
            · exact Or.inl h
            · right
              push_cast at h2 ⊢
              omega
          · rintro (h | ⟨h1, h2⟩)
            · exact Or.inl h
            · right
              push_cast at h2 ⊢
              omega
      · rw [if_neg hx, List.count_cons_of_ne hx]
        by_cases hc : deg c - 1 = 0
        · rw [if_pos hc]
          have hmem : x ∈ q ++ [c] ↔ x ∈ q := by
            rw [List.mem_append, List.mem_singleton]
            constructor
            · rintro (h | h)
              · exact h
              · exact absurd h hx
            · exact Or.inl
          rw [hmem]
        · rw [if_neg hc]

lemma processChildren_nodup (cs : List String) :
    ∀ (deg : String → Int) (q : List String), q.Nodup → (∀ x ∈ q, deg x ≤ 0) →
      (processChildren cs deg q).2.Nodup := by
  induction cs with
  | nil => intro deg q h1 _; exact h1
  | cons c rest ih =>
      intro deg q h1 h2
      simp only [processChildren]
      by_cases hc : deg c - 1 = 0
      · rw [if_pos hc]
        apply ih
        · rw [List.nodup_append]
          refine ⟨h1, List.nodup_singleton _, ?_⟩
          intro x hx hx'
          rw [List.mem_singleton] at hx'
          subst hx'
          have := h2 x hx
          omega
        · intro x hx
          rcases List.mem_append.mp hx with hx | hx
          · by_cases hxc : x = c
            · rw [if_pos hxc]
              have := h2 x hx
              omega
            · rw [if_neg hxc]
              exact h2 x hx
          · rw [List.mem_singleton] at hx
            subst hx
            rw [if_pos rfl]
            omega
      · rw [if_neg hc]
        apply ih _ _ h1
        intro x hx
        by_cases hxc : x = c
        · rw [if_pos hxc]
          have := h2 x hx
          omega
        · rw [if_neg hxc]
          exact h2 x hx

lemma countP_order_append (order : List String) (node : String) (hnode : node ∉ order)
    (lst : List String) :
    lst.countP (fun q => !(order.contains q)) =
      lst.countP (fun q => !((order ++ [node]).contains q)) + lst.count node := by
  induction lst with
  | nil => rfl
  | cons q lst ih =>
      rw [List.countP_cons, List.countP_cons, List.count_cons, ih]
      by_cases hq : q = node
      · subst hq
        have e1 : (!(order.contains q)) = true := by
          rw [contains_false_of_not_mem hnode]
          rfl
        have e2 : ¬((!((order ++ [q]).contains q)) = true) := by
          rw [(contains_true_iff _ _).mpr (List.mem_append_right _ (by simp))]
          exact Bool.false_ne_true
        rw [if_pos e1, if_neg e2, if_pos (beq_self_eq_true q)]
        omega
      · have hbeq : ¬((q == node) = true) := by
          rw [beq_iff_eq]
          exact hq
        rw [if_neg hbeq]
        have hcont : (order ++ [node]).contains q = order.contains q := by
          by_cases hm : q ∈ order
          · rw [(contains_true_iff _ _).mpr hm,
              (contains_true_iff _ _).mpr (List.mem_append_left _ hm)]
          · rw [contains_false_of_not_mem hm, contains_false_of_not_mem ?_]
            intro hmem
            rcases List.mem_append.mp hmem with h | h
            · exact hm h
            · rw [List.mem_singleton] at h
              exact hq h
        rw [hcont]
        omega

lemma count_le_countP_not_mem (lst : List String) (order : List String)
    (node : String) (hnode : node ∉ order) :
    lst.count node ≤ lst.countP (fun q => !(order.contains q)) := by
  have h : lst.count node = lst.countP (· == node) := by simp [List.count]
  rw [h]
  apply List.countP_mono_left
  intro q _ hq
  rw [beq_iff_eq] at hq
  subst hq
  rw [contains_false_of_not_mem hnode]
  rfl

lemma count_filterMap_if (lst : List String) (t x p : String) :
    (lst.filterMap (fun q => if q = p then some t else none)).count x =
      if x = t then lst.count p else 0 := by
  induction lst with
  | nil => simp
  | cons q lst ih =>
      rw [List.filterMap_cons]
      by_cases hq : q = p
      · rw [if_pos hq, List.count_cons, ih]
        by_cases hx : x = t
        · rw [if_pos hx, if_pos hx, List.count_cons,
            if_pos (show (q == p) = true by rw [hq]; exact beq_self_eq_true p),
            if_pos (show (t == x) = true by rw [hx]; exact beq_self_eq_true t)]
        · rw [if_neg hx, if_neg hx,
            if_neg (show ¬((t == x) = true) by
              rw [beq_iff_eq]; exact fun h => hx h.symm)]
      · rw [if_neg hq, ih, List.count_cons,
          if_neg (show ¬((q == p) = true) by rw [beq_iff_eq]; exact hq)]
        simp

lemma count_localChildren (Parents : String → List String) (tables : List String)
    (node x : String) :
    (localChildren Parents tables node).count x =
      tables.count x * (inSubsetParents Parents tables x).count node := by
  unfold localChildren inSubsetParents
  suffices h : ∀ l : List String,
      (l.flatMap (fun t =>
        ((Parents t).filter (fun q => tables.contains q)).filterMap
          (fun q => if q = node then some t else none))).count x =
        l.count x * ((Parents x).filter (fun q => tables.contains q)).count node from
    h tables
  intro l
  induction l with
  | nil => simp
  | cons t l ih =>
      rw [List.flatMap_cons, List.count_append, ih, count_filterMap_if, List.count_cons]
      by_cases hx : x = t
      · rw [if_pos hx, if_pos (show (t == x) = true by rw [hx]; exact beq_self_eq_true t),
          hx]
        ring
      · rw [if_neg hx, if_neg (show ¬((t == x) = true) by
          rw [beq_iff_eq]; exact fun h => hx h.symm)]
        ring

lemma appearsBefore_append (l l' : List String) (p t : String)
    (h : appearsBefore l p t) : appearsBefore (l ++ l') p t := by
  obtain ⟨i, j, hij, hi, hj⟩ := h
  have hjl : j < l.length := (List.getElem?_eq_some.mp hj).1
  have hil : i < l.length := lt_trans hij hjl
  exact ⟨i, j, hij, by rw [List.getElem?_append_left hil]; exact hi,
    by rw [List.getElem?_append_left hjl]; exact hj⟩

lemma appearsBefore_concat (l : List String) (p t : String) (h : p ∈ l) :
    appearsBefore (l ++ [t]) p t := by
  obtain ⟨i, hi⟩ := List.mem_iff_getElem?.mp h
  have hil : i < l.length := (List.getElem?_eq_some.mp hi).1
  exact ⟨i, l.length, hil, by rw [List.getElem?_append_left hil]; exact hi,
    List.getElem?_concat_length l t⟩

lemma appearsBefore_mem_left {l : List String} {p t : String}
    (h : appearsBefore l p t) : p ∈ l := by
  obtain ⟨i, _, _, hi, _⟩ := h
  obtain ⟨hl, he⟩ := List.getElem?_eq_some.mp hi
  exact he ▸ List.getElem_mem hl

lemma mem_of_nodup_length_le (order tables : List String) (hnd : order.Nodup)
    (hsub : ∀ x ∈ order, x ∈ tables) (hlen : tables.length ≤ order.length) :
    ∀ x ∈ tables, x ∈ order := by
  intro x hx
  have h1 : order.toFinset ⊆ tables.toFinset := by
    intro y hy
    rw [List.mem_toFinset] at hy ⊢
    exact hsub y hy
  have h2 : tables.toFinset.card ≤ order.toFinset.card := by
    calc tables.toFinset.card ≤ tables.length := List.toFinset_card_le tables
    _ ≤ order.length := hlen
    _ = order.toFinset.card := (List.toFinset_card_of_nodup hnd).symm
  have heq := Finset.eq_of_subset_of_card_le h1 h2
  exact List.mem_toFinset.mp (heq ▸ List.mem_toFinset.mpr hx)

lemma bang_of_not_contains {l : List String} {a : String} (h : a ∉ l) :
    (!(l.contains a)) = true := by
  rw [contains_false_of_not_mem h]
  rfl

lemma not_mem_of_bang {l : List String} {a : String}
    (h : (!(l.contains a)) = true) : a ∉ l := by
  intro hm
  rw [(contains_true_iff l a).mpr hm] at h
  exact absurd h (by decide)

lemma kahnStep (Parents : String → List String) (tables : List String)
    (hnd : tables.Nodup) (node : String) (rest : List String)
    (deg : String → Int) (order : List String)
    (hInv : KahnInv Parents tables (node :: rest) deg order) :
    KahnInv Parents tables
      (processChildren (localChildren Parents tables node) deg rest).2
      (processChildren (localChildren Parents tables node) deg rest).1
      (order ++ [node]) := by
  set cs := localChildren Parents tables node with hcs
  have hnodeT : node ∈ tables := hInv.q_sub node (List.mem_cons_self _ _)
  have hnodeO : node ∉ order := hInv.disj node (List.mem_cons_self _ _)
  have hdegnode : deg node = 0 := hInv.q_zero node (List.mem_cons_self _ _)
  have hnodeR : node ∉ rest := (List.nodup_cons.mp hInv.q_nodup).1
  have hrestnd : rest.Nodup := (List.nodup_cons.mp hInv.q_nodup).2
  have hcountN : ∀ x, cs.count x =
      tables.count x * (inSubsetParents Parents tables x).count node :=
    fun x => count_localChildren Parents tables node x
  have hmemT : ∀ x : String, 0 < cs.count x → x ∈ tables := by
    intro x h0
    by_contra hx
    rw [hcountN x, List.count_eq_zero_of_not_mem hx, Nat.zero_mul] at h0
    exact Nat.lt_irrefl 0 h0
  have hcountT : ∀ x ∈ tables, cs.count x =
      (inSubsetParents Parents tables x).count node := by
    intro x hx
    rw [hcountN x, List.count_eq_one_of_mem hnd hx, Nat.one_mul]
  have hdeg' : ∀ x, (processChildren cs deg rest).1 x = deg x - (cs.count x : Int) :=
    processChildren_deg cs deg rest
  have hq'mem : ∀ x, x ∈ (processChildren cs deg rest).2 ↔
      x ∈ rest ∨ (1 ≤ deg x ∧ deg x ≤ (cs.count x : Int)) :=
    processChildren_queue_mem cs deg rest
  have hparents_in_order : ∀ q ∈ inSubsetParents Parents tables node, q ∈ order := by
    have h0 : ((inSubsetParents Parents tables node).countP
        (fun q => !(order.contains q)) : Int) = 0 := by
      rw [← hInv.degEq node hnodeT]
      exact hdegnode
    have h0n : (inSubsetParents Parents tables node).countP
        (fun q => !(order.contains q)) = 0 := by exact_mod_cast h0
    intro q hq
    by_contra hqo
    exact List.countP_eq_zero.mp h0n q hq (bang_of_not_contains hqo)
  have hdegpos : ∀ x ∈ tables, 0 ≤ deg x := by
    intro x hx
    rw [hInv.degEq x hx]
    exact Int.natCast_nonneg _
  have hnew_not_order : ∀ x : String, 1 ≤ deg x → deg x ≤ (cs.count x : Int) →
      x ∉ order := by
    intro x h1 h2 hxo
    have hxT : x ∈ tables := hmemT x (by omega)
    have hcpn : (inSubsetParents Parents tables x).countP
        (fun q => !(order.contains q)) ≠ 0 := by
      have := hInv.degEq x hxT
      omega
    have hne : ¬ ∀ q ∈ inSubsetParents Parents tables x,
        ¬((!(order.contains q)) = true) := by
      intro hall
      exact hcpn (List.countP_eq_zero.mpr hall)
    push_neg at hne
    obtain ⟨q, hqmem, hqpred⟩ := hne
    have hqnord : q ∉ order := not_mem_of_bang hqpred
    have hqP : q ∈ Parents x := (List.mem_filter.mp hqmem).1
    have hqT : q ∈ tables :=
      (contains_true_iff _ _).mp (List.mem_filter.mp hqmem).2
    exact hqnord (appearsBefore_mem_left (hInv.ord_parents x q hxo hqP hqT))
  refine ⟨?_, ?_, ?_, ?_, ?_, ?_, ?_, ?_, ?_⟩
  · rw [List.nodup_append]
    refine ⟨hInv.ord_nodup, List.nodup_singleton _, ?_⟩
    intro x hx hx'
    rw [List.mem_singleton] at hx'
    subst hx'
    exact hnodeO hx
  · intro x hx
    rcases List.mem_append.mp hx with h | h
    · exact hInv.ord_sub x h
    · rw [List.mem_singleton] at h
      subst h
      exact hnodeT
  · intro x hx
    rcases (hq'mem x).mp hx with h | ⟨h1, h2⟩
    · exact hInv.q_sub x (List.mem_cons_of_mem _ h)
    · exact hmemT x (by omega)
  · exact processChildren_nodup cs deg rest hrestnd
      (fun x hx => le_of_eq (hInv.q_zero x (List.mem_cons_of_mem _ hx)))
  · intro x hx hxo
    rcases (hq'mem x).mp hx with h | ⟨h1, h2⟩
    · rcases List.mem_append.mp hxo with ho | ho
      · exact hInv.disj x (List.mem_cons_of_mem _ h) ho
      · rw [List.mem_singleton] at ho
        subst ho
        exact hnodeR h
    · rcases List.mem_append.mp hxo with ho | ho
      · exact hnew_not_order x h1 h2 ho
      · rw [List.mem_singleton] at ho
        subst ho
        omega
  · intro x hx
    rw [hdeg' x, hInv.degEq x hx, hcountT x hx]
    have htrans := countP_order_append order node hnodeO (inSubsetParents Parents tables x)
    omega
  · intro x hx hxo hd0
    rw [hdeg' x] at hd0
    have hxnode : x ≠ node := by
      intro h
      subst h
      exact hxo (List.mem_append_right _ (by simp))
    have hxorder : x ∉ order := fun h => hxo (List.mem_append_left _ h)
    by_cases hdx : deg x = 0
    · have hmem := hInv.q_complete x hx hxorder hdx
      rcases List.mem_cons.mp hmem with h | h
      · exact absurd h hxnode
      · exact (hq'mem x).mpr (Or.inl h)
    · have hpos : 0 ≤ deg x := hdegpos x hx
      exact (hq'mem x).mpr (Or.inr (by omega))
  · intro x hx
    rcases (hq'mem x).mp hx with h | ⟨h1, h2⟩
    · have hdx : deg x = 0 := hInv.q_zero x (List.mem_cons_of_mem _ h)
      have hxT : x ∈ tables := hInv.q_sub x (List.mem_cons_of_mem _ h)
      have hcp0 : (inSubsetParents Parents tables x).countP
          (fun q => !(order.contains q)) = 0 := by
        have := hInv.degEq x hxT
        omega
      have hnm : node ∉ inSubsetParents Parents tables x := by
        intro hm
        exact List.countP_eq_zero.mp hcp0 node hm (bang_of_not_contains hnodeO)
      have hcnt0 : cs.count x = 0 := by
        rw [hcountT x hxT, List.count_eq_zero_of_not_mem hnm]
      rw [hdeg' x, hcnt0, hdx]
      rfl
    · have hxT : x ∈ tables := hmemT x (by omega)
      have hle : (cs.count x : Int) ≤ deg x := by
        rw [hInv.degEq x hxT]
        have := count_le_countP_not_mem (inSubsetParents Parents tables x) order node hnodeO
        rw [hcountT x hxT]
        exact_mod_cast this
      rw [hdeg' x]
      omega
  · intro x q hx hq hqT
    rcases List.mem_append.mp hx with h | h
    · exact appearsBefore_append _ _ _ _ (hInv.ord_parents x q h hq hqT)
    · rw [List.mem_singleton] at h
      subst h
      apply appearsBefore_concat
      apply hparents_in_order
      unfold inSubsetParents
      rw [List.mem_filter]
      exact ⟨hq, (contains_true_iff _ _).mpr hqT⟩

lemma kahnFinal_of_inv {Parents : String → List String} {tables : List String}
    {deg : String → Int} {order : List String}
    (hInv : KahnInv Parents tables [] deg order) :
    KahnFinal Parents tables order deg :=
  { ord_nodup := hInv.ord_nodup, ord_sub := hInv.ord_sub, degEq := hInv.degEq,
    ord_parents := hInv.ord_parents,
    complete := fun x hx hxo hdeg =>
      absurd (hInv.q_complete x hx hxo hdeg) (List.not_mem_nil x) }

lemma kahnLoop_spec (Parents : String → List String) (tables : List String)
    (hnd : tables.Nodup) :
    ∀ (fuel : Nat) (queue : List String) (deg : String → Int) (order : List String),
      KahnInv Parents tables queue deg order →
      tables.length ≤ fuel + order.length →
      KahnFinal Parents tables
        (kahnLoop (localChildren Parents tables) fuel queue deg order).1
        (kahnLoop (localChildren Parents tables) fuel queue deg order).2 := by
  intro fuel
  induction fuel with
  | zero =>
      intro queue deg order hInv hlen
      cases queue with
      | nil =>
          simp only [kahnLoop]
          exact kahnFinal_of_inv hInv
      | cons node rest =>
          exfalso
          have hmem := mem_of_nodup_length_le order tables hInv.ord_nodup
            hInv.ord_sub (by omega) node (hInv.q_sub node (List.mem_cons_self _ _))
          exact hInv.disj node (List.mem_cons_self _ _) hmem
  | succ fuel ih =>
      intro queue deg order hInv hlen
      cases queue with
      | nil =>
          simp only [kahnLoop]
          exact kahnFinal_of_inv hInv
      | cons node rest =>
          simp only [kahnLoop]
          apply ih _ _ _ (kahnStep Parents tables hnd node rest deg order hInv)
          rw [List.length_append, List.length_singleton]
          omega

/-- Claim C1: for every subset of tables and every non-self FK edge
`child → parent` within the subset (an entry of `g.Parents`, which
`graph.Build` populates exactly with the non-self FK edges), if neither
endpoint is reported in `CycleTables` then the parent appears strictly
before the child in the returned `Order`. -/
theorem topo_parent_before_child :
    ∀ (g : Graph) (tables : List String), tables.Nodup →
      ∀ t p, p ∈ g.Parents t → t ∈ tables → p ∈ tables →
        t ∉ (TopoSort g tables).CycleTables →
        p ∉ (TopoSort g tables).CycleTables →
        appearsBefore (TopoSort g tables).Order p t := by
  intro g tables hnd t p hedge ht hp htc _
  have hInit : KahnInv g.Parents tables
      (tables.filter (fun x => initialDeg g.Parents tables x == 0))
      (initialDeg g.Parents tables) [] := by
    refine ⟨List.nodup_nil, ?_, ?_, hnd.filter _, ?_, ?_, ?_, ?_, ?_⟩
    · intro x hx
      exact absurd hx (List.not_mem_nil x)
    · intro x hx
      exact (List.mem_filter.mp hx).1
    · intro x _
      exact List.not_mem_nil x
    · intro x hx
      unfold initialDeg
      rw [if_pos ((contains_true_iff tables x).mpr hx)]
      congr 1
      exact ((List.countP_eq_length).mpr (fun a _ => rfl)).symm
    · intro x hx _ hdeg
      exact List.mem_filter.mpr ⟨hx, by rw [beq_iff_eq]; exact hdeg⟩
    · intro x hx
      have := (List.mem_filter.mp hx).2
      rwa [beq_iff_eq] at this
    · intro x q hx _ _
      exact absurd hx (List.not_mem_nil x)
  have hfin := kahnLoop_spec g.Parents tables hnd tables.length _ _ [] hInit
    (by simp)
  set res := kahnLoop (localChildren g.Parents tables) tables.length
    (tables.filter (fun x => initialDeg g.Parents tables x == 0))
    (initialDeg g.Parents tables) [] with hres
  have htopo : TopoSort g tables =
      if res.1.length < tables.length then
        { Order := res.1, HasCycle := true,
          CycleTables := tables.filter (fun x => 0 < res.2 x) }
      else { Order := res.1, HasCycle := false, CycleTables := [] } := rfl
  rw [htopo] at htc ⊢
  by_cases hcase : res.1.length < tables.length
  · rw [if_pos hcase] at htc ⊢
    simp only at htc ⊢
    have hpred : ¬(decide (0 < res.2 t) = true) := fun hpr =>
      htc (List.mem_filter.mpr ⟨ht, hpr⟩)
    have hdle : res.2 t ≤ 0 := by
      rw [decide_eq_true_iff] at hpred
      omega
    have hdeg0 : res.2 t = 0 := by
      have hge : 0 ≤ res.2 t := by
        rw [hfin.degEq t ht]
        exact Int.natCast_nonneg _
      omega
    have htord : t ∈ res.1 := by
      by_contra hto
      exact hfin.complete t ht hto hdeg0
    exact hfin.ord_parents t p htord hedge hp
  · rw [if_neg hcase] at htc ⊢
    simp only at htc ⊢
    have htord : t ∈ res.1 :=
      mem_of_nodup_length_le res.1 tables hfin.ord_nodup hfin.ord_sub
        (by omega) t ht
    exact hfin.ord_parents t p htord hedge hp

/-- Witness for C1 on the concrete two-table graph: the parent `public.a`
comes out before the child `public.b`. -/
theorem topo_parent_before_child_witness :
    (["public.b", "public.a"] : List String).Nodup ∧
    "public.a" ∈ gW.Parents "public.b" ∧
    appearsBefore (TopoSort gW ["public.b", "public.a"]).Order
      "public.a" "public.b" :=
  ⟨by decide, by decide,
   topo_parent_before_child gW ["public.b", "public.a"] (by decide)
     "public.b" "public.a" (by decide) (by decide) (by decide)
     (by decide) (by decide)⟩

end PgSubData
